import Mathlib

/-!
Verification of the `rcon_palworld` repository's response-parsing layer.

Rust strings are modelled as `List Char`; machine integers as `Nat` with an
explicit `2 ^ 64` bound where `u64` overflow matters; fallible Rust functions
returning `Result` are modelled as `Except Unit`.
-/

/-- The character list of a string literal. -/
def strData (s : String) : List Char := s.data

/-- Model of Rust `str::starts_with` on character lists: `startsWith pat l`
is `true` iff `pat` is an initial segment of `l`. -/
def startsWith : List Char → List Char → Bool
  | [], _ => true
  | _ :: _, [] => false
  | p :: ps, c :: cs => p = c && startsWith ps cs

/-- Model of Rust `str::contains` on character lists: scan every suffix of
the haystack for the pattern as a leading segment. -/
def containsSub (pat : List Char) : List Char → Bool
  | [] => startsWith pat []
  | c :: cs => startsWith pat (c :: cs) || containsSub pat cs

/-- Model of Rust `str::split` with a one-character separator (the source
only ever splits on `"\n"` and `","`).  Like Rust's `split`, it always
yields at least one piece, and a trailing separator yields a final empty
piece. -/
def splitOnChar (sep : Char) : List Char → List (List Char)
  | [] => [[]]
  | c :: cs =>
    let r := splitOnChar sep cs
    if c = sep then [] :: r
    else
      match r with
      | [] => [[c]]
      | h :: t => (c :: h) :: t

theorem startsWith_iff (pat l : List Char) :
    startsWith pat l = true ↔ ∃ rest, l = pat ++ rest := by
  induction pat generalizing l with
  | nil => simp [startsWith]
  | cons p ps ih =>
    cases l with
    | nil =>
      simp [startsWith]
    | cons c cs =>
      simp only [startsWith, Bool.and_eq_true, decide_eq_true_eq, ih]
      constructor
      · rintro ⟨rfl, rest, rfl⟩
        exact ⟨rest, rfl⟩
      · rintro ⟨rest, h⟩
        cases h
        exact ⟨rfl, rest, rfl⟩

theorem containsSub_iff (pat l : List Char) :
    containsSub pat l = true ↔ ∃ pre post, l = pre ++ pat ++ post := by
  induction l with
  | nil =>
    simp only [containsSub, startsWith_iff]
    constructor
    · rintro ⟨rest, h⟩
      exact ⟨[], rest, by simpa using h⟩
    · rintro ⟨pre, post, h⟩
      have h' : pre = [] ∧ pat = [] ∧ post = [] := by
        simpa [List.append_eq_nil, List.append_assoc] using h.symm
      exact ⟨[], by simp [h'.2.1, h'.2.2]⟩
  | cons c cs ih =>
    simp only [containsSub, Bool.or_eq_true, startsWith_iff, ih]
    constructor
    · rintro (⟨rest, h⟩ | ⟨pre, post, h⟩)
      · exact ⟨[], rest, by simpa using h⟩
      · exact ⟨c :: pre, post, by simp [h]⟩
    · rintro ⟨pre, post, h⟩
      cases pre with
      | nil => exact Or.inl ⟨post, by simpa using h⟩
      | cons p pre' =>
        rcases h with h
        simp only [List.cons_append, List.cons.injEq] at h
        exact Or.inr ⟨pre', post, h.2⟩

/-! ## Player roster parsing (`PalworldRCON::get_player_info`) -/

/-- Representation of one row of the `showplayers` RCON command
(`src/palworld_server/src/rcon.rs`, struct `PlayerInfo`). -/
structure PlayerInfo where
  name : List Char
  uid : List Char
  steamid : List Char
deriving DecidableEq

/-- The closure passed to `filter_map` in `get_player_info`
(`src/palworld_server/src/rcon.rs` lines 160-170): split the line on `","`;
if the split does not have exactly three pieces, drop the line, otherwise
build a `PlayerInfo` from the three pieces by index. -/
def playerRowOfLine (info : List Char) : Option PlayerInfo :=
  let split := splitOnChar ',' info
  if split.length ≠ 3 then none
  else some { name := split.getD 0 [], uid := split.getD 1 [], steamid := split.getD 2 [] }

/-- Embedding of `PalworldRCON::get_player_info` after `send_command` has
returned `response`: split on `"\n"`, skip the first line, filter-map each
remaining line through `playerRowOfLine`, and return `Ok` of the collected
rows (the Rust function has no failure path after the network call). -/
def get_player_info (response : List Char) : Except Unit (List PlayerInfo) :=
  Except.ok (((splitOnChar '\n' response).drop 1).filterMap playerRowOfLine)

/-- The claim's row parser, written from the spec's words: a line that
splits on the delimiter into exactly three fields yields the record
`{name, uid, steam_id}` with the fields untouched; any other line yields
nothing. -/
def specParseRow (line : List Char) : Option PlayerInfo :=
  match splitOnChar ',' line with
  | [a, b, c] => some { name := a, uid := b, steamid := c }
  | _ => none

theorem playerRowOfLine_eq_specParseRow (line : List Char) :
    playerRowOfLine line = specParseRow line := by
  unfold playerRowOfLine specParseRow
  rcases h : splitOnChar ',' line with _ | ⟨a, _ | ⟨b, _ | ⟨c, _ | ⟨d, t⟩⟩⟩⟩ <;>
    simp [List.length, List.getD]

/-- C1: for every response text, `get_player_info` discards the first line
and keeps, in the original line order, one `PlayerInfo` per remaining line
that splits on `","` into exactly three fields, with the fields copied
verbatim; all other lines are dropped and the overall result is `Ok` even
when no row is valid. -/
theorem get_player_info_c1 (response : List Char) :
    get_player_info response =
      Except.ok (((splitOnChar '\n' response).drop 1).filterMap specParseRow) := by
  unfold get_player_info
  rw [show playerRowOfLine = specParseRow from funext playerRowOfLine_eq_specParseRow]

/-! ## Save and shutdown outcome parsing -/

/-- Embedding of the result test in `PalworldRCON::save`
(`src/palworld_server/src/rcon.rs` line 179): the response text contains
the substring `"Complete Save"`. -/
def saveSuccess (msg : List Char) : Bool :=
  containsSub (strData "Complete Save") msg

/-- C6: for every server response text, `save` reports success exactly when
the text contains the fixed substring `"Complete Save"`; any other text
yields `false`, not an error (the test is a total Boolean). -/
theorem saveSuccess_c6 (msg : List Char) :
    saveSuccess msg = true ↔ ∃ pre post, msg = pre ++ strData "Complete Save" ++ post :=
  containsSub_iff (strData "Complete Save") msg

/-- Model of Rust `std::time::Duration`: `new s n` stores `s` seconds plus
`n` nanoseconds, normalised so that `as_secs` reports whole seconds. -/
structure Duration where
  secs : Nat
  nanos : Nat
deriving DecidableEq

/-- Rust `Duration::as_secs`: the whole-second part of the duration. -/
def Duration.as_secs (d : Duration) : Nat :=
  d.secs + d.nanos / 1000000000

/-- The decimal digit characters of a natural number, as produced by Rust's
`format!` for an unsigned integer. -/
def natChars (n : Nat) : List Char :=
  (Nat.repr n).data

/-- Embedding of the command built by `PalworldRCON::shutdown`
(`src/palworld_server/src/rcon.rs` lines 184-188):
`format!("shutdown {} {}", delay.unwrap_or(Duration::new(30, 0)).as_secs(), msg)`. -/
def shutdownCmd (delay : Option Duration) (msg : List Char) : List Char :=
  strData "shutdown " ++ natChars (delay.getD ⟨30, 0⟩).as_secs ++ [' '] ++ msg

/-- Embedding of the result test in `PalworldRCON::shutdown`
(`src/palworld_server/src/rcon.rs` line 191): the response text contains
the substring `"The server will shut down in"`. -/
def shutdownSuccess (msg : List Char) : Bool :=
  containsSub (strData "The server will shut down in") msg

/-- The success test as the claim words it: the response contains the
substring `"will shut down"`. -/
def claimShutdownSuccess (msg : List Char) : Bool :=
  containsSub (strData "will shut down") msg

/-- C7 counterexample: on the response text `"will shut down"` the claim's
marker test succeeds, but the code's `shutdown` reports failure, because
the substring the code looks for is the longer
`"The server will shut down in"`. -/
theorem shutdown_c7_counterexample :
    claimShutdownSuccess (strData "will shut down") = true ∧
      shutdownSuccess (strData "will shut down") = false := by
  constructor <;> rfl

/-- C7 (amended): `shutdown` builds exactly the command
`"shutdown <seconds> <message>"`, where `<seconds>` is the supplied delay
in whole seconds and defaults to 30 when no delay is given, and reports
success exactly when the response contains the fixed marker
`"The server will shut down in"`. -/
theorem shutdown_c7_amended :
    (∀ d msg, shutdownCmd (some d) msg =
        strData "shutdown " ++ natChars d.as_secs ++ [' '] ++ msg) ∧
    (∀ msg, shutdownCmd none msg = strData "shutdown 30 " ++ msg) ∧
    (∀ resp, shutdownSuccess resp = true ↔
        ∃ pre post, resp = pre ++ strData "The server will shut down in" ++ post) := by
  refine ⟨fun d msg => rfl, fun msg => rfl, fun resp => containsSub_iff _ resp⟩

/-! ## Broadcast message pre-processing (`PalworldRCON::broadcast`) -/

/-- Model of Rust `str::replace(" ", s)` on character lists: the pattern is
a single character, so each space character is rewritten to `s` and every
other character is kept. -/
def replaceAllSpace (s : List Char) (msg : List Char) : List Char :=
  msg.flatMap fun c => if c = ' ' then s else [c]

/-- Embedding of `PalworldRCON::broadcast`
(`src/palworld_server/src/rcon.rs` lines 121-133): when a replacement
string is supplied, rewrite each space of the message to it; then prefix
the message with `"broadcast "`. -/
def broadcastCmd (message : List Char) (replace_space : Option (List Char)) : List Char :=
  let message :=
    match replace_space with
    | some s => replaceAllSpace s message
    | none => message
  strData "broadcast " ++ message

/-- The broadcast command as the claim words it: each whitespace character
of the message (not only the space character) is rewritten to the
replacement string. -/
def claimBroadcastCmd (message : List Char) (replace_space : Option (List Char)) : List Char :=
  let message :=
    match replace_space with
    | some s => message.flatMap fun c => if c.isWhitespace then s else [c]
    | none => message
  strData "broadcast " ++ message

/-- C8 counterexample: for the message `"a\tb"` with replacement `"_"`, the
claim predicts the command `"broadcast a_b"` (a tab is whitespace), but the
code only replaces the space character and sends `"broadcast a\tb"`. -/
theorem broadcast_c8_counterexample :
    claimBroadcastCmd (strData "a\tb") (some (strData "_")) = strData "broadcast a_b" ∧
    broadcastCmd (strData "a\tb") (some (strData "_")) = strData "broadcast a\tb" ∧
    broadcastCmd (strData "a\tb") (some (strData "_")) ≠
      claimBroadcastCmd (strData "a\tb") (some (strData "_")) := by
  refine ⟨rfl, rfl, by decide⟩

theorem splitOnChar_ne_nil (sep : Char) (l : List Char) : splitOnChar sep l ≠ [] := by
  cases l with
  | nil => simp [splitOnChar]
  | cons c cs =>
    simp only [splitOnChar]
    split
    · simp
    · split <;> simp

theorem intercalate_cons_head (s : List Char) (c : Char) (h : List Char)
    (t : List (List Char)) :
    List.intercalate s ((c :: h) :: t) = c :: List.intercalate s (h :: t) := by
  cases t <;> simp [List.intercalate, List.intersperse]

theorem intercalate_nil_cons (s : List Char) (h : List Char) (t : List (List Char)) :
    List.intercalate s ([] :: h :: t) = s ++ List.intercalate s (h :: t) := by
  simp [List.intercalate, List.intersperse]

theorem replaceAllSpace_eq_intercalate (s msg : List Char) :
    replaceAllSpace s msg = List.intercalate s (splitOnChar ' ' msg) := by
  induction msg with
  | nil => rfl
  | cons c cs ih =>
    obtain ⟨h, t, hr⟩ := List.exists_cons_of_ne_nil (splitOnChar_ne_nil ' ' cs)
    by_cases hc : c = ' '
    · subst hc
      have lhs : replaceAllSpace s (' ' :: cs) = s ++ replaceAllSpace s cs := by
        simp [replaceAllSpace]
      have rhs : splitOnChar ' ' (' ' :: cs) = [] :: splitOnChar ' ' cs := by
        simp [splitOnChar]
      rw [lhs, rhs, hr, intercalate_nil_cons, ih, hr]
    · have lhs : replaceAllSpace s (c :: cs) = c :: replaceAllSpace s cs := by
        simp [replaceAllSpace, hc]
      have rhs : splitOnChar ' ' (c :: cs) = (c :: h) :: t := by
        simp [splitOnChar, hc, hr]
      rw [lhs, rhs, intercalate_cons_head, ih, hr]

/-- C8 (amended): `broadcast` sends exactly the command
`"broadcast <message-with-each-SPACE-rewritten-to-s>"` when a replacement
string `s` is supplied — only the space character `U+0020` is rewritten
(stated spec-side as splitting the message on spaces and re-joining with
`s`), and nothing else in the message is altered; with no replacement the
message is sent unchanged. -/
theorem broadcast_c8_amended :
    (∀ msg s, broadcastCmd msg (some s) =
        strData "broadcast " ++ List.intercalate s (splitOnChar ' ' msg)) ∧
    (∀ msg, broadcastCmd msg none = strData "broadcast " ++ msg) :=
  ⟨fun msg s => by simp [broadcastCmd, replaceAllSpace_eq_intercalate],
   fun msg => rfl⟩

/-! ## Memory statistics (`MemInfo`, `PalworldConnection::get_memory_info`) -/

/-- Embedding of the `MemInfo` struct (`src/palworld_server/src/mem.rs`):
five `u64` counters, all zero by default. -/
structure MemInfo where
  mem_total : Nat := 0
  mem_free : Nat := 0
  mem_available : Nat := 0
  buffers : Nat := 0
  cached : Nat := 0
deriving DecidableEq

/-- Model of Rust `u64::checked_sub`: `some (a - b)` when `b ≤ a`, `none`
on underflow. -/
def checkedSub (a b : Nat) : Option Nat :=
  if b ≤ a then some (a - b) else none

/-- Embedding of `MemInfo::used` (`src/palworld_server/src/mem.rs` lines
15-17): `mem_total.checked_sub(mem_available)`. -/
def MemInfo.used (mi : MemInfo) : Option Nat :=
  checkedSub mi.mem_total mi.mem_available

/-- Embedding of `MemInfo::used_percent` (`src/palworld_server/src/mem.rs`
lines 19-27): `used / mem_total` when `used` is present, `none` otherwise.
The `f64` quotient is modelled as a rational; the claim settled here only
concerns which inputs produce `none`, and that structure is exact. -/
def MemInfo.used_percent (mi : MemInfo) : Option ℚ :=
  match mi.used with
  | some used => some ((used : ℚ) / (mi.mem_total : ℚ))
  | none => none

/-- C5: `used` returns `some (total - available)` exactly when
`available ≤ total`, and `none` exactly when `available > total`;
`used_percent` returns `none` exactly when `used` does. -/
theorem memInfo_used_c5 (mi : MemInfo) :
    (∀ u, mi.used = some u ↔
        mi.mem_available ≤ mi.mem_total ∧ u = mi.mem_total - mi.mem_available) ∧
    (mi.used = none ↔ mi.mem_total < mi.mem_available) ∧
    (mi.used_percent = none ↔ mi.used = none) := by
  by_cases h : mi.mem_available ≤ mi.mem_total
  · simp only [MemInfo.used, MemInfo.used_percent, checkedSub, if_pos h]
    refine ⟨fun u => ?_, by simp; omega, by simp⟩
    constructor
    · intro hu
      exact ⟨h, (Option.some.inj hu).symm⟩
    · rintro ⟨-, rfl⟩
      rfl
  · simp only [MemInfo.used, MemInfo.used_percent, checkedSub, if_neg h]
    refine ⟨fun u => ?_, by simp; omega, by simp⟩
    simp
    omega

/-- Lowercasing of a character list, modelling Rust `str::to_lowercase`
(which agrees with per-character lowercasing on the ASCII text involved
here). -/
def toLowerList (l : List Char) : List Char :=
  l.map Char.toLower

/-- Embedding of the `bytes_regex = "[0-9]{1,99} kB$"` test-and-find in
`PalworldConnection::get_memory_info` (`src/palworld_server/src/ssh.rs`
lines 75, 82-88).  The regex is anchored at the end of the line and the
characters that may follow a digit inside the pattern are not digits, so
the engine's leftmost match is exactly: the last at-most-99 characters of
the trailing digit run, followed by `" kB"`.  This function returns the
digit part of that match, which is what `kb.replace(" kB", "")` passes to
`parse` (the digits contain no occurrence of `" kB"`); `none` means the
line is skipped. -/
def memLineDigits (line : List Char) : Option (List Char) :=
  match line.reverse with
  | 'B' :: 'k' :: ' ' :: rest =>
    let w := (rest.takeWhile Char.isDigit).take 99
    if w = [] then none else some w.reverse
  | _ => none

/-- The numeric value of a decimal digit string, most significant digit
first. -/
def digitsToNat (ds : List Char) : Nat :=
  ds.foldl (fun acc c => acc * 10 + (c.toNat - 48)) 0

/-- Model of Rust `str::parse::<u64>()` applied to the all-digit numeral
extracted by `memLineDigits`: the numeric value when it fits in 64 bits,
an overflow error otherwise. -/
def parseU64 (ds : List Char) : Except Unit Nat :=
  if digitsToNat ds < 2 ^ 64 then Except.ok (digitsToNat ds) else Except.error ()

/-- Embedding of one iteration of the line loop in
`PalworldConnection::get_memory_info` (`src/palworld_server/src/ssh.rs`
lines 81-101): skip lines not matched by `bytes_regex`; otherwise test the
lowercased line for containing each key string in the source's match-arm
order and assign the parsed value to the corresponding field, propagating
a parse error. -/
def memInfoStep (mi : MemInfo) (line : List Char) : Except Unit MemInfo :=
  match memLineDigits line with
  | none => Except.ok mi
  | some ds =>
    let x := toLowerList line
    if containsSub (strData "memtotal:") x then
      (parseU64 ds).map fun v => { mi with mem_total := v }
    else if containsSub (strData "memfree:") x then
      (parseU64 ds).map fun v => { mi with mem_free := v }
    else if containsSub (strData "memavailable:") x then
      (parseU64 ds).map fun v => { mi with mem_available := v }
    else if containsSub (strData "buffers:") x then
      (parseU64 ds).map fun v => { mi with buffers := v }
    else if containsSub (strData "cached:") x then
      (parseU64 ds).map fun v => { mi with cached := v }
    else Except.ok mi

/-- Embedding of the parsing part of `PalworldConnection::get_memory_info`:
fold the line loop over the output split on `"\n"`, starting from
`MemInfo::default()`; the first parse error aborts the whole function. -/
def parseMemInfo (output : List Char) : Except Unit MemInfo :=
  (splitOnChar '\n' output).foldlM memInfoStep {}

/-- The five recognised meminfo keys, lowercased and colon-terminated, in
the order the source tests them. -/
def memKeys : List (List Char) :=
  [strData "memtotal:", strData "memfree:", strData "memavailable:",
   strData "buffers:", strData "cached:"]

theorem memLineDigits_some_decomp {line ds : List Char}
    (h : memLineDigits line = some ds) :
    ∃ pre, ds ≠ [] ∧ (∀ c ∈ ds, c.isDigit = true) ∧
      line = pre ++ ds ++ strData " kB" := by
  unfold memLineDigits at h
  split at h
  case _ rest heq =>
    rcases hw : (rest.takeWhile Char.isDigit).take 99 with _ | ⟨d, ws⟩
    · rw [hw] at h
      simp at h
    · rw [hw] at h
      rw [if_neg (by simp : ¬((d :: ws : List Char) = []))] at h
      have hds : ds = (d :: ws).reverse := (Option.some.inj h).symm
      have hsub : ∀ c ∈ (d :: ws : List Char), c.isDigit = true := by
        intro c hc
        have hc1 : c ∈ rest.takeWhile Char.isDigit :=
          List.mem_of_mem_take
            (show c ∈ List.take 99 (rest.takeWhile Char.isDigit) by rw [hw]; exact hc)
        exact List.mem_takeWhile_imp hc1
      have hrest : rest = (d :: ws) ++ ((rest.takeWhile Char.isDigit).drop 99
          ++ rest.dropWhile Char.isDigit) := by
        rw [← hw, ← List.append_assoc, List.take_append_drop,
          List.takeWhile_append_dropWhile]
      have hline : line = rest.reverse ++ strData " kB" := by
        have h2 : line.reverse.reverse = ('B' :: 'k' :: ' ' :: rest).reverse := by rw [heq]
        simpa using h2
      refine ⟨((rest.takeWhile Char.isDigit).drop 99
          ++ rest.dropWhile Char.isDigit).reverse, ?_, ?_, ?_⟩
      · rw [hds]
        simp
      · intro c hc
        rw [hds] at hc
        exact hsub c (List.mem_reverse.mp hc)
      · rw [hline, hds]
        have h3 : rest.reverse = ((rest.takeWhile Char.isDigit).drop 99
            ++ rest.dropWhile Char.isDigit).reverse ++ (d :: ws).reverse := by
          conv_lhs => rw [hrest]
          simp
        rw [h3, List.append_assoc]
  case _ =>
    exact absurd h (by simp)

/-- Writes a parsed value to the `MemInfo` field at the given position in
the fixed key order MemTotal, MemFree, MemAvailable, Buffers, Cached. -/
def setMemField (mi : MemInfo) (i : Nat) (v : Nat) : MemInfo :=
  match i with
  | 0 => { mi with mem_total := v }
  | 1 => { mi with mem_free := v }
  | 2 => { mi with mem_available := v }
  | 3 => { mi with buffers := v }
  | _ => { mi with cached := v }

/-- The position of the first key in the given order that occurs as a
substring of the (lowercased) line. -/
def firstKeyHit (x : List Char) : List (List Char) → Option Nat
  | [] => none
  | k :: ks => if containsSub k x then some 0 else (firstKeyHit x ks).map (· + 1)

/-- One line of meminfo parsing as the amended claim words it: skip lines
not carrying the digits-plus-`" kB"` suffix; otherwise find the first key
of `memKeys` (in the stated order) occurring as a substring of the
lowercased line and assign the parsed value to that key's field,
propagating a parse error; lines containing no key are ignored. -/
def specMemStep (mi : MemInfo) (line : List Char) : Except Unit MemInfo :=
  match memLineDigits line with
  | none => Except.ok mi
  | some ds =>
    match firstKeyHit (toLowerList line) memKeys with
    | none => Except.ok mi
    | some i => (parseU64 ds).map fun v => setMemField mi i v

theorem memInfoStep_eq_specMemStep (mi : MemInfo) (line : List Char) :
    memInfoStep mi line = specMemStep mi line := by
  unfold memInfoStep specMemStep
  split
  · rfl
  · simp only [memKeys, firstKeyHit]
    split_ifs with h1 h2 h3 h4 h5 <;> rfl

theorem except_map_ok {α β γ : Type} {f : α → β} {x : Except γ α} {b : β}
    (h : Except.map f x = Except.ok b) : ∃ a, x = Except.ok a ∧ b = f a := by
  cases x with
  | error e => simp [Except.map] at h
  | ok a =>
    refine ⟨a, rfl, ?_⟩
    simp only [Except.map] at h
    exact (Except.ok.inj h).symm

theorem memInfoStep_ok_fields {mi mi' : MemInfo} {line : List Char}
    (h : memInfoStep mi line = Except.ok mi') :
    (mi'.mem_total = mi.mem_total
        ∨ containsSub (strData "memtotal:") (toLowerList line) = true) ∧
    (mi'.mem_free = mi.mem_free
        ∨ containsSub (strData "memfree:") (toLowerList line) = true) ∧
    (mi'.mem_available = mi.mem_available
        ∨ containsSub (strData "memavailable:") (toLowerList line) = true) ∧
    (mi'.buffers = mi.buffers
        ∨ containsSub (strData "buffers:") (toLowerList line) = true) ∧
    (mi'.cached = mi.cached
        ∨ containsSub (strData "cached:") (toLowerList line) = true) := by
  unfold memInfoStep at h
  split at h
  · obtain rfl := Except.ok.inj h
    simp
  · dsimp only at h
    split_ifs at h with h1 h2 h3 h4 h5
    · obtain ⟨v, -, rfl⟩ := except_map_ok h
      exact ⟨Or.inr h1, Or.inl rfl, Or.inl rfl, Or.inl rfl, Or.inl rfl⟩
    · obtain ⟨v, -, rfl⟩ := except_map_ok h
      exact ⟨Or.inl rfl, Or.inr h2, Or.inl rfl, Or.inl rfl, Or.inl rfl⟩
    · obtain ⟨v, -, rfl⟩ := except_map_ok h
      exact ⟨Or.inl rfl, Or.inl rfl, Or.inr h3, Or.inl rfl, Or.inl rfl⟩
    · obtain ⟨v, -, rfl⟩ := except_map_ok h
      exact ⟨Or.inl rfl, Or.inl rfl, Or.inl rfl, Or.inr h4, Or.inl rfl⟩
    · obtain ⟨v, -, rfl⟩ := except_map_ok h
      exact ⟨Or.inl rfl, Or.inl rfl, Or.inl rfl, Or.inl rfl, Or.inr h5⟩
    · obtain rfl := Except.ok.inj h
      simp

theorem foldlM_preserves_absent (p : MemInfo → Nat) (key : List Char)
    (hstep : ∀ mi1 mi2 line, memInfoStep mi1 line = Except.ok mi2 →
      containsSub key (toLowerList line) = false → p mi2 = p mi1) :
    ∀ (lines : List (List Char)) (mi0 mi : MemInfo),
      (∀ line ∈ lines, containsSub key (toLowerList line) = false) →
      List.foldlM memInfoStep mi0 lines = Except.ok mi → p mi = p mi0 := by
  intro lines
  induction lines with
  | nil =>
    intro mi0 mi _ h
    rw [List.foldlM_nil] at h
    have h' : (Except.ok mi0 : Except Unit MemInfo) = Except.ok mi := h
    rw [Except.ok.inj h']
  | cons l ls ih =>
    intro mi0 mi hall h
    rw [List.foldlM_cons] at h
    cases hs : memInfoStep mi0 l with
    | error e =>
      rw [hs] at h
      have h' : (Except.error e : Except Unit MemInfo) = Except.ok mi := h
      exact absurd h' (by simp)
    | ok mi1 =>
      rw [hs] at h
      have h' : List.foldlM memInfoStep mi1 ls = Except.ok mi := h
      have hp1 : p mi1 = p mi0 :=
        hstep mi0 mi1 l hs (hall l (List.mem_cons_self l ls))
      have hp2 := ih mi1 mi (fun line hl => hall line (List.mem_cons_of_mem l hl)) h'
      rw [hp2, hp1]

/-- C3 (amended): lines not ending in one-to-many digits followed by
`" kB"` are ignored; lines whose lowercasing contains none of the five key
strings (lowercased, colon-terminated) as a substring are ignored; the
claim's three-line example parses to total 16384000, free 2048000,
available 8192000, with the absent keys leaving buffers and cached at zero
and the overall result `Ok`; on every considered line the digits are
assigned to the field of the first key (in the stated order) occurring as a
substring of the lowercased line — the whole parse equals the fold of the
claim-worded step over the lines; and in general every key absent from the
whole input leaves its field at zero whenever the parse succeeds. -/
theorem meminfo_c3_amended :
    (∀ mi line, (¬∃ pre ds, ds ≠ ([] : List Char) ∧ (∀ c ∈ ds, c.isDigit = true) ∧
        line = pre ++ ds ++ strData " kB") → memInfoStep mi line = Except.ok mi) ∧
    (∀ mi line, (∀ k ∈ memKeys, ¬∃ pre post, toLowerList line = pre ++ k ++ post) →
        memInfoStep mi line = Except.ok mi) ∧
    parseMemInfo
        (strData "MemTotal:  16384000 kB\nMemFree:  2048000 kB\nMemAvailable: 8192000 kB")
      = Except.ok { mem_total := 16384000, mem_free := 2048000, mem_available := 8192000 } ∧
    (∀ mi line, memInfoStep mi line = specMemStep mi line) ∧
    (∀ output, parseMemInfo output
        = List.foldlM specMemStep {} (splitOnChar '\n' output)) ∧
    (∀ output mi, parseMemInfo output = Except.ok mi →
      ((∀ line ∈ splitOnChar '\n' output,
          containsSub (strData "memtotal:") (toLowerList line) = false) →
        mi.mem_total = 0) ∧
      ((∀ line ∈ splitOnChar '\n' output,
          containsSub (strData "memfree:") (toLowerList line) = false) →
        mi.mem_free = 0) ∧
      ((∀ line ∈ splitOnChar '\n' output,
          containsSub (strData "memavailable:") (toLowerList line) = false) →
        mi.mem_available = 0) ∧
      ((∀ line ∈ splitOnChar '\n' output,
          containsSub (strData "buffers:") (toLowerList line) = false) →
        mi.buffers = 0) ∧
      ((∀ line ∈ splitOnChar '\n' output,
          containsSub (strData "cached:") (toLowerList line) = false) →
        mi.cached = 0)) := by
  have hstepEq : ∀ mi line, memInfoStep mi line = specMemStep mi line :=
    memInfoStep_eq_specMemStep
  have hbase : ∀ (output : List Char) (mi : MemInfo),
      parseMemInfo output = Except.ok mi →
      ∀ (p : MemInfo → Nat) (key : List Char),
        (∀ mi1 mi2 line, memInfoStep mi1 line = Except.ok mi2 →
          containsSub key (toLowerList line) = false → p mi2 = p mi1) →
        (∀ line ∈ splitOnChar '\n' output,
          containsSub key (toLowerList line) = false) →
        p mi = p ({} : MemInfo) := by
    intro output mi hparse p key hstep hall
    exact foldlM_preserves_absent p key hstep (splitOnChar '\n' output) {} mi hall hparse
  refine ⟨?_, ?_, rfl, hstepEq, ?_, ?_⟩
  · intro mi line hno
    cases hld : memLineDigits line with
    | none =>
      unfold memInfoStep
      rw [hld]
    | some ds =>
      obtain ⟨pre, hne, hdig, hdecomp⟩ := memLineDigits_some_decomp hld
      exact absurd ⟨pre, ds, hne, hdig, hdecomp⟩ hno
  · intro mi line hkeys
    have hc : ∀ k ∈ memKeys, containsSub k (toLowerList line) = false := by
      intro k hk
      cases hcs : containsSub k (toLowerList line) with
      | false => rfl
      | true => exact absurd ((containsSub_iff _ _).mp hcs) (hkeys k hk)
    unfold memInfoStep
    cases hld : memLineDigits line with
    | none => rfl
    | some ds =>
      have h1 := hc (strData "memtotal:") (by simp [memKeys])
      have h2 := hc (strData "memfree:") (by simp [memKeys])
      have h3 := hc (strData "memavailable:") (by simp [memKeys])
      have h4 := hc (strData "buffers:") (by simp [memKeys])
      have h5 := hc (strData "cached:") (by simp [memKeys])
      simp [h1, h2, h3, h4, h5]
  · intro output
    unfold parseMemInfo
    rw [show memInfoStep = specMemStep from funext fun mi => funext fun line => hstepEq mi line]
  · intro output mi hparse
    refine ⟨fun hall => ?_, fun hall => ?_, fun hall => ?_, fun hall => ?_, fun hall => ?_⟩
    · exact hbase output mi hparse (fun m => m.mem_total) _
        (fun mi1 mi2 line hs hc =>
          ((memInfoStep_ok_fields hs).1).resolve_right (by simp [hc])) hall
    · exact hbase output mi hparse (fun m => m.mem_free) _
        (fun mi1 mi2 line hs hc =>
          ((memInfoStep_ok_fields hs).2.1).resolve_right (by simp [hc])) hall
    · exact hbase output mi hparse (fun m => m.mem_available) _
        (fun mi1 mi2 line hs hc =>
          ((memInfoStep_ok_fields hs).2.2.1).resolve_right (by simp [hc])) hall
    · exact hbase output mi hparse (fun m => m.buffers) _
        (fun mi1 mi2 line hs hc =>
          ((memInfoStep_ok_fields hs).2.2.2.1).resolve_right (by simp [hc])) hall
    · exact hbase output mi hparse (fun m => m.cached) _
        (fun mi1 mi2 line hs hc =>
          ((memInfoStep_ok_fields hs).2.2.2.2).resolve_right (by simp [hc])) hall

/-- C3 witness: at the concrete line `"x"` the ignoring hypotheses hold
(`"x"` neither matches the numeric-suffix pattern nor contains a key) and
the step leaves the record unchanged; and for the concrete input
`"MemFree: 5 kB"`, whose lines never contain the MemTotal key, the parsed
record's total is zero. -/
theorem meminfo_c3_witness :
    memInfoStep {} (strData "x") = Except.ok ({} : MemInfo) ∧
    MemInfo.mem_total { mem_free := 5 } = 0 := by
  constructor
  · refine meminfo_c3_amended.1 {} (strData "x") ?_
    rintro ⟨pre, ds, hne, -, heq⟩
    have hlen := congrArg List.length heq
    simp [strData] at hlen
    cases ds with
    | nil => exact hne rfl
    | cons d t => simp at hlen; omega
  · refine (meminfo_c3_amended.2.2.2.2.2 (strData "MemFree: 5 kB")
      { mem_free := 5 } rfl).1 ?_
    intro line hl
    have hs : splitOnChar '\n' (strData "MemFree: 5 kB") = [strData "MemFree: 5 kB"] := rfl
    rw [hs] at hl
    simp only [List.mem_singleton] at hl
    subst hl
    rfl

/-- The claim's notion of the key of a meminfo line: the text before the
first colon, compared case-insensitively (after appending the colon)
against the fixed key set. -/
def claimLineKey (line : List Char) : List Char :=
  line.takeWhile fun c => c ≠ ':'

/-- Whether the claim's key of the line is one of the five recognised
keys, case-insensitively. -/
def claimKeyInSet (line : List Char) : Bool :=
  memKeys.any fun k => toLowerList (claimLineKey line) ++ [':'] == k

/-- C3 counterexample: the line `"notmemfree: 42 kB"` has key
`"notmemfree"`, which matches none of the five keys, so under the claim it
must be ignored; the code nevertheless assigns 42 to `mem_free`, because
the key test is a substring test on the whole lowercased line. -/
theorem meminfo_c3_counterexample :
    claimKeyInSet (strData "notmemfree: 42 kB") = false ∧
    parseMemInfo (strData "notmemfree: 42 kB") = Except.ok { mem_free := 42 } :=
  ⟨rfl, rfl⟩

/-- C4 (evaluation at the failing input): the key of
`"SwapCached: 123 kB"` is `"SwapCached"`, not `"Cached"`, yet parsing
`"Cached: 500 kB"` followed by `"SwapCached: 123 kB"` leaves `cached` at
123: the `SwapCached` line overwrote the field because the code tests
`contains("cached:")` on the whole lowercased line. -/
theorem meminfo_c4_swapcached :
    claimKeyInSet (strData "SwapCached: 123 kB") = false ∧
    parseMemInfo (strData "Cached: 500 kB\nSwapCached: 123 kB")
      = Except.ok { cached := 123 } :=
  ⟨rfl, rfl⟩

/-- C10: on the line `"MemTotal: 99999999999999999999 kB"` the 20-digit run
is accepted by the line pattern (which admits up to 99 digits) and the key
is recognised, but the value exceeds the unsigned 64-bit range, so the
whole parse returns an error instead of ignoring the line or leaving the
field at zero. -/
theorem meminfo_c10_overflow :
    memLineDigits (strData "MemTotal: 99999999999999999999 kB")
      = some (strData "99999999999999999999") ∧
    containsSub (strData "memtotal:")
      (toLowerList (strData "MemTotal: 99999999999999999999 kB")) = true ∧
    2 ^ 64 ≤ digitsToNat (strData "99999999999999999999") ∧
    parseMemInfo (strData "MemTotal: 99999999999999999999 kB") = Except.error () := by
  refine ⟨rfl, rfl, by decide, rfl⟩

/-! ## Version extraction (`PalworldRCON::get_version`) -/

/-- One numeric component of the version pattern `[0-9]{1,9}`: consume
greedily up to nine decimal digits, at least one.  Every character that may
follow a component inside the pattern (`.` or `]`) is not a digit, so this
deterministic greedy consumption agrees with the regex engine's
backtracking semantics. -/
def digits1to9 (cs : List Char) : Option (List Char × List Char) :=
  let ds := (cs.takeWhile Char.isDigit).take 9
  if ds = [] then none else some (ds, cs.drop ds.length)

/-- A digit component followed by the given terminator character: the
building block `[0-9]{1,9}\.` (or `[0-9]{1,9}\]` for the last component)
of the version regex. -/
def matchComp (stop : Char) (cs : List Char) : Option (List Char × List Char) :=
  match digits1to9 cs with
  | none => none
  | some (ds, r) =>
    match r with
    | c :: r' => if c = stop then some (ds, r') else none
    | [] => none

/-- Whether the version regex
`\[v[0-9]{1,9}\.[0-9]{1,9}\.[0-9]{1,9}\.[0-9]{1,9}\]` of
`PalworldRCON::get_version` (`src/palworld_server/src/rcon.rs` line 197)
matches at the start of `cs`; on success, the matched text. -/
def matchVersionAt (cs : List Char) : Option (List Char) :=
  match cs with
  | '[' :: 'v' :: r0 =>
    match matchComp '.' r0 with
    | none => none
    | some (d1, r1) =>
      match matchComp '.' r1 with
      | none => none
      | some (d2, r2) =>
        match matchComp '.' r2 with
        | none => none
        | some (d3, r3) =>
          match matchComp ']' r3 with
          | none => none
          | some (d4, _) =>
            some ('[' :: 'v' :: (d1 ++ '.' :: (d2 ++ '.' :: (d3 ++ '.' :: (d4 ++ [']'])))))
  | _ => none

/-- The regex engine's `find`: try the pattern at each position from the
left and return the first (leftmost) match. -/
def findVersionMatch : List Char → Option (List Char)
  | [] => none
  | c :: cs =>
    match matchVersionAt (c :: cs) with
    | some m => some m
    | none => findVersionMatch cs

/-- The character filter implementing
`Regex::new(r"(\[)|(\])").replace_all(version, "")` in `get_version`
(`src/palworld_server/src/rcon.rs` line 207): keep every character that is
not a bracket. -/
def notBracket (c : Char) : Bool :=
  !(c == '[' || c == ']')

/-- Embedding of `PalworldRCON::get_version` after `send_command` has
returned `result` (`src/palworld_server/src/rcon.rs` lines 194-210): fail
when the version regex has no match, otherwise return the first match with
all brackets replaced by nothing. -/
def getVersion (result : List Char) : Except Unit (List Char) :=
  match findVersionMatch result with
  | none => Except.error ()
  | some m => Except.ok (m.filter notBracket)

/-- The claim's version pattern, written from its words: `[`, one-to-nine
digits, `.`, one-to-nine digits, `.`, one-to-nine digits, `.`, one-to-nine
digits, `]` — with no character between the opening bracket and the first
digit. -/
def matchClaimAt (cs : List Char) : Option (List Char) :=
  match cs with
  | '[' :: r0 =>
    match matchComp '.' r0 with
    | none => none
    | some (d1, r1) =>
      match matchComp '.' r1 with
      | none => none
      | some (d2, r2) =>
        match matchComp '.' r2 with
        | none => none
        | some (d3, r3) =>
          match matchComp ']' r3 with
          | none => none
          | some (d4, _) =>
            some ('[' :: (d1 ++ '.' :: (d2 ++ '.' :: (d3 ++ '.' :: (d4 ++ [']'])))))
  | _ => none

/-- Leftmost search for the claim's bracketed pattern. -/
def findClaimMatch : List Char → Option (List Char)
  | [] => none
  | c :: cs =>
    match matchClaimAt (c :: cs) with
    | some m => some m
    | none => findClaimMatch cs

/-- C2 counterexample: the text `"[1.2.3.4]"` contains the claim's
bracketed four-component dotted numeric pattern, yet `get_version` fails
with a parse error, because the code's regex additionally requires a
literal `v` after the opening bracket. -/
theorem get_version_c2_counterexample :
    (findClaimMatch (strData "[1.2.3.4]")).isSome = true ∧
    getVersion (strData "[1.2.3.4]") = Except.error () :=
  ⟨rfl, rfl⟩

theorem digits1to9_digits {cs ds r : List Char} (h : digits1to9 cs = some (ds, r)) :
    ∀ c ∈ ds, c.isDigit = true := by
  simp only [digits1to9] at h
  split at h
  · exact absurd h (by simp)
  · simp only [Option.some.injEq, Prod.mk.injEq] at h
    intro c hc
    rw [← h.1] at hc
    exact List.mem_takeWhile_imp (List.mem_of_mem_take hc)

theorem matchComp_digits {stop : Char} {cs ds r : List Char}
    (h : matchComp stop cs = some (ds, r)) : ∀ c ∈ ds, c.isDigit = true := by
  unfold matchComp at h
  split at h
  · exact absurd h (by simp)
  case _ ds0 r0 heq =>
    split at h
    case _ c r' =>
      split at h
      · simp only [Option.some.injEq, Prod.mk.injEq] at h
        rw [← h.1]
        exact digits1to9_digits heq
      · exact absurd h (by simp)
    case _ => exact absurd h (by simp)

theorem matchVA_shape {cs m : List Char} (h : matchVersionAt cs = some m) :
    ∃ mid : List Char, m = '[' :: 'v' :: (mid ++ [']']) ∧
      ∀ c ∈ mid, c.isDigit = true ∨ c = '.' := by
  unfold matchVersionAt at h
  split at h
  case _ r0 =>
    split at h
    · exact absurd h (by simp)
    case _ d1 r1 h1 =>
      split at h
      · exact absurd h (by simp)
      case _ d2 r2 h2 =>
        split at h
        · exact absurd h (by simp)
        case _ d3 r3 h3 =>
          split at h
          · exact absurd h (by simp)
          case _ d4 r4 h4 =>
            refine ⟨d1 ++ '.' :: (d2 ++ '.' :: (d3 ++ '.' :: d4)), ?_, ?_⟩
            · rw [← Option.some.inj h]
              simp
            · intro c hc
              simp only [List.mem_append, List.mem_cons] at hc
              rcases hc with hd | rfl | hd | rfl | hd | rfl | hd
              · exact Or.inl (matchComp_digits h1 c hd)
              · exact Or.inr rfl
              · exact Or.inl (matchComp_digits h2 c hd)
              · exact Or.inr rfl
              · exact Or.inl (matchComp_digits h3 c hd)
              · exact Or.inr rfl
              · exact Or.inl (matchComp_digits h4 c hd)
  case _ => exact absurd h (by simp)

theorem notBracket_of_digit {c : Char} (h : c.isDigit = true) : notBracket c = true := by
  have h1 : c ≠ '[' := by rintro rfl; exact absurd h (by decide)
  have h2 : c ≠ ']' := by rintro rfl; exact absurd h (by decide)
  simp [notBracket, h1, h2]

theorem matchVA_strip {cs m : List Char} (h : matchVersionAt cs = some m) :
    m.filter notBracket = List.dropLast (List.drop 1 m) := by
  obtain ⟨mid, rfl, hmid⟩ := matchVA_shape h
  have hfilter : mid.filter notBracket = mid := by
    rw [List.filter_eq_self]
    intro c hc
    rcases hmid c hc with hd | rfl
    · exact notBracket_of_digit hd
    · decide
  have hl : List.filter notBracket ('[' :: 'v' :: (mid ++ [']'])) = 'v' :: mid := by
    have e1 : notBracket '[' = false := by decide
    have e2 : notBracket 'v' = true := by decide
    have e3 : List.filter notBracket [']'] = [] := by decide
    rw [List.filter_cons, List.filter_cons, List.filter_append, hfilter, e1, e2, e3]
    simp
  have hr : List.dropLast (List.drop 1 ('[' :: 'v' :: (mid ++ [']']))) = 'v' :: mid := by
    have : ('v' :: (mid ++ [']']) : List Char) = ('v' :: mid) ++ [']'] := by simp
    simp only [List.drop_succ_cons, List.drop_zero, this, List.dropLast_concat]
  rw [hl, hr]

theorem matchVA_nil : matchVersionAt [] = none := rfl

theorem findVM_cons_some {c : Char} {t m : List Char}
    (hm : matchVersionAt (c :: t) = some m) :
    findVersionMatch (c :: t) = some m := by
  unfold findVersionMatch
  rw [hm]

theorem findVM_cons_none {c : Char} {t : List Char}
    (hm : matchVersionAt (c :: t) = none) :
    findVersionMatch (c :: t) = findVersionMatch t := by
  conv_lhs => unfold findVersionMatch
  rw [hm]

theorem findVM_none_iff {cs : List Char} :
    findVersionMatch cs = none ↔ ∀ i, matchVersionAt (List.drop i cs) = none := by
  induction cs with
  | nil =>
    constructor
    · intro _ i
      rw [List.drop_nil]
      exact matchVA_nil
    · intro _
      rfl
  | cons c t ih =>
    cases hm : matchVersionAt (c :: t) with
    | some m =>
      constructor
      · intro hf
        rw [findVM_cons_some hm] at hf
        exact absurd hf (by simp)
      · intro h
        have h0 := h 0
        rw [List.drop_zero, hm] at h0
        exact absurd h0 (by simp)
    | none =>
      constructor
      · intro hf i
        rw [findVM_cons_none hm] at hf
        cases i with
        | zero => exact hm
        | succ j => simpa using ih.mp hf j
      · intro h
        rw [findVM_cons_none hm]
        exact ih.mpr fun j => by simpa using h (j + 1)

theorem findVM_some_first {cs m : List Char} (h : findVersionMatch cs = some m) :
    ∃ i, matchVersionAt (List.drop i cs) = some m ∧
      ∀ j, j < i → matchVersionAt (List.drop j cs) = none := by
  induction cs with
  | nil => exact absurd h (by simp [findVersionMatch])
  | cons c t ih =>
    cases hm : matchVersionAt (c :: t) with
    | some m' =>
      rw [findVM_cons_some hm] at h
      refine ⟨0, ?_, ?_⟩
      · rw [List.drop_zero, hm, h]
      · intro j hj
        omega
    | none =>
      rw [findVM_cons_none hm] at h
      obtain ⟨i, h1, h2⟩ := ih h
      refine ⟨i + 1, by simpa using h1, ?_⟩
      intro j hj
      cases j with
      | zero => exact hm
      | succ j' => simpa using h2 j' (by omega)

theorem getVersion_eq_ok {cs m : List Char} (h : findVersionMatch cs = some m) :
    getVersion cs = Except.ok (m.filter notBracket) := by
  unfold getVersion
  rw [h]

theorem getVersion_eq_error {cs : List Char} (h : findVersionMatch cs = none) :
    getVersion cs = Except.error () := by
  unfold getVersion
  rw [h]

/-- C2 (amended): `get_version` succeeds exactly when the banner text
contains the pattern `[`, literal `v`, one-to-nine digits, `.`, one-to-nine
digits, `.`, one-to-nine digits, `.`, one-to-nine digits, `]`; on success
it returns the first (leftmost) such match with the surrounding brackets
stripped; and the example banner
`"Welcome to Pal Server[v0.1.3.0] Default Palworld Server"` yields
`"v0.1.3.0"`.  Without a match it fails with a parse error. -/
theorem get_version_c2_amended :
    (∀ cs, (∃ v, getVersion cs = Except.ok v) ↔
        ∃ i, (matchVersionAt (List.drop i cs)).isSome = true) ∧
    (∀ cs m, findVersionMatch cs = some m →
        getVersion cs = Except.ok (List.dropLast (List.drop 1 m)) ∧
        ∃ i, matchVersionAt (List.drop i cs) = some m ∧
          ∀ j, j < i → matchVersionAt (List.drop j cs) = none) ∧
    getVersion (strData "Welcome to Pal Server[v0.1.3.0] Default Palworld Server")
      = Except.ok (strData "v0.1.3.0") := by
  refine ⟨fun cs => ?_, fun cs m h => ?_, rfl⟩
  · constructor
    · rintro ⟨v, hv⟩
      cases hf : findVersionMatch cs with
      | none =>
        rw [getVersion_eq_error hf] at hv
        exact absurd hv (by simp)
      | some m =>
        obtain ⟨i, h1, -⟩ := findVM_some_first hf
        exact ⟨i, by simp [h1]⟩
    · rintro ⟨i, hi⟩
      cases hf : findVersionMatch cs with
      | some m => exact ⟨m.filter notBracket, getVersion_eq_ok hf⟩
      | none =>
        rw [Option.isSome_iff_exists] at hi
        obtain ⟨m, hm⟩ := hi
        exact absurd hm (by rw [findVM_none_iff.mp hf i]; simp)
  · obtain ⟨i, h1, h2⟩ := findVM_some_first h
    refine ⟨?_, i, h1, h2⟩
    rw [getVersion_eq_ok h, matchVA_strip h1]

/-- C2 witness: the amended theorem applied to the concrete banner
`"[v1.2.3.4]"`, whose first match is the whole text; stripping the
surrounding brackets yields `"v1.2.3.4"`. -/
theorem get_version_c2_witness :
    getVersion (strData "[v1.2.3.4]")
      = Except.ok (List.dropLast (List.drop 1 (strData "[v1.2.3.4]"))) :=
  (get_version_c2_amended.2.1 (strData "[v1.2.3.4]") (strData "[v1.2.3.4]") rfl).1

/-! ## Connect handshake (`PalworldRCON::connect`) -/

/-- The error kinds distinguished by the session layer (spec §7). -/
inductive RconError where
  | authenticationError
  | connectionError
  | protocolError
deriving DecidableEq

/-- The observable outcome of one connection attempt: the result, whether
the socket was closed, and how many authentication attempts were made with
the credential. -/
structure ConnectOutcome where
  result : Except RconError Unit
  socketClosed : Bool
  authAttempts : Nat

/-- Modelled from the spec: the authentication handshake driven by
`PalworldRCON::connect` (`src/palworld_server/src/rcon.rs` lines 82-89)
happens inside the third-party `rcon` crate's `connect`, whose code is not
under `src/`; only its caller is.  Per spec §4.2, connect sends an Auth
packet, reads the immediate AuthResponse, and, if the echoed id is −1,
fails with AuthenticationError and closes the socket without retrying the
same credential; otherwise the session is established. -/
def connectHandshake (echoedId : Int) : ConnectOutcome :=
  if echoedId = -1 then
    { result := Except.error RconError.authenticationError,
      socketClosed := true, authAttempts := 1 }
  else
    { result := Except.ok (), socketClosed := false, authAttempts := 1 }

/-- C9: whenever the server echoes request id −1 in the AuthResponse, the
connection attempt fails with an AuthenticationError — never a generic
ConnectionError — the socket is closed, and exactly one authentication
attempt was made with the credential (no retry). -/
theorem connect_auth_failure_c9 (echoedId : Int) (h : echoedId = -1) :
    (connectHandshake echoedId).result
        = Except.error RconError.authenticationError ∧
    (connectHandshake echoedId).result
        ≠ Except.error RconError.connectionError ∧
    (connectHandshake echoedId).socketClosed = true ∧
    (connectHandshake echoedId).authAttempts = 1 := by
  subst h
  refine ⟨rfl, fun hcontra => RconError.noConfusion (Except.error.inj hcontra), rfl, rfl⟩

/-- C9 witness: the theorem applied at the concrete echoed id −1. -/
theorem connect_auth_failure_c9_witness :
    (connectHandshake (-1)).result = Except.error RconError.authenticationError ∧
    (connectHandshake (-1)).result ≠ Except.error RconError.connectionError ∧
    (connectHandshake (-1)).socketClosed = true ∧
    (connectHandshake (-1)).authAttempts = 1 :=
  connect_auth_failure_c9 (-1) rfl

